import Mathlib

/-!
# Verification of the WhaleScanner core (`whale_scanner.py`)

A shallow embedding, in Lean 4, of the algorithmic core of the scanner:
the rate limiter, the resilient transport's response classification, the
adaptive batch fetcher, the window-metrics engine, position-age inference,
the risk/style scoring and the ranking pass.

Conventions of the embedding:
* Python `float` values are modelled as `ℚ` (exact rational arithmetic;
  `math.isfinite` is identically true on `ℚ`, noted wherever the source
  checks it).  `math.sqrt` has no rational counterpart, so functions that
  call it take an explicit `sqrtFn : ℚ → ℚ` parameter; no theorem below
  depends on the value of `sqrtFn`.
* Python `dict`s are association lists with insertion order preserved and
  value-overwrite on key collision, exactly as CPython.
* Network calls are modelled by explicit response oracles supplied as
  arguments: the code under test never inspects anything but the parsed
  response shape.
* Python's stable `sorted(key=..., reverse=True)` is `List.mergeSort`
  with the corresponding boolean comparison (merge sort is stable, as is
  CPython's timsort).
-/

/-! ## Small helpers (`to_float`-free: numbers arrive parsed) -/

/-- `dedupe_keep_order` from the source: keep the first occurrence of each
string, preserving order.  The Python `seen` set is a list used only for
membership. -/
def dedupeGo (seen : List String) : List String → List String
  | [] => []
  | x :: xs => if x ∈ seen then dedupeGo seen xs else x :: dedupeGo (x :: seen) xs

/-- `dedupe_keep_order(items)` from the source. -/
def dedupe_keep_order (l : List String) : List String :=
  dedupeGo [] l

/-- `stdev(values)` from the source: `None` for fewer than two values,
else the Bessel-corrected sample standard deviation.  `math.sqrt` is the
supplied `sqrtFn`. -/
def stdev (sqrtFn : ℚ → ℚ) (values : List ℚ) : Option ℚ :=
  if values.length < 2 then none
  else
    let m := values.sum / values.length
    let var := (values.map (fun v => (v - m) ^ 2)).sum / (values.length - 1 : ℚ)
    some (sqrtFn var)

/-- One step of the `max_drawdown` loop, on the state `(peak, mdd)`. -/
def mddStep (st : ℚ × ℚ) (v : ℚ) : ℚ × ℚ :=
  let peak := if v > st.1 then v else st.1
  let dd := if peak ≠ 0 then (peak - v) / peak else 0
  (peak, max st.2 dd)

/-- `max_drawdown(series)` from the source: running peak-to-trough decline.
`None` for fewer than two points; a step whose running peak is `0` is guarded
(`if peak != 0`) and contributes drawdown `0.0`. -/
def max_drawdown (series : List ℚ) : Option ℚ :=
  if series.length < 2 then none
  else some ((series.foldl mddStep (series.headD 0, 0)).2)

/-! ## `RateLimiter` (adaptive cooldown) -/

/-- `RateLimiter.note_error`: grow the cooldown geometrically (×1.6), floored
at `min_interval_s`, capped at `max_interval_s`. -/
def note_error (minI maxI c : ℚ) : ℚ :=
  min maxI (max (c * 1.6) minI)

/-- `RateLimiter.note_ok`: decay the cooldown (×0.85 − 0.01), clamped at 0. -/
def note_ok (c : ℚ) : ℚ :=
  max 0 (c * 0.85 - 0.01)

/-- One limiter event, as observed by the transport loop. -/
inductive LimEvent
  | err
  | ok
deriving DecidableEq, Repr

/-- The cooldown after a sequence of `note_error` / `note_ok` calls, starting
from `c`. -/
def runLimiter (minI maxI : ℚ) (c : ℚ) (events : List LimEvent) : ℚ :=
  events.foldl (fun c e => match e with
    | .err => note_error minI maxI c
    | .ok => note_ok c) c

/-! ## `style_label` -/

/-- `style_label(risk, vol_pct_daily, mdd_pct)` from the source: `None`
inputs are substituted with `0.0`, then the three threshold rows are tried
in order. -/
def style_label (risk : ℚ) (vol_pct_daily mdd_pct : Option ℚ) : String :=
  let v := vol_pct_daily.getD 0
  let d := mdd_pct.getD 0
  if risk ≥ 70 ∨ v ≥ 5 ∨ d ≥ 25 then "aggressive"
  else if risk ≥ 40 ∨ v ≥ 2 ∨ d ≥ 12 then "balanced"
  else "stable"

/-! ## Positions and `risk_score` -/

/-- The fields of the `PositionView` dataclass read by the functions
verified here (`risk_score`, `infer_position_ages_from_fills`); the
remaining fields of the dataclass are output payload only. -/
structure PositionView where
  coin : String
  size : ℚ
  leverage : ℚ
  margin_used : ℚ
  liq_distance_pct : Option ℚ
deriving DecidableEq, Repr

/-- `sum(p.margin_used for p in positions)`. -/
def totalMargin (positions : List PositionView) : ℚ :=
  (positions.map (·.margin_used)).sum

/-- `max((p.leverage for p in positions), default=0.0)`. -/
def maxLeverage (positions : List PositionView) : ℚ :=
  ((positions.map (·.leverage)).max?).getD 0

/-- `[p.liq_distance_pct for p in positions if p.liq_distance_pct is not None]`. -/
def liqDists (positions : List PositionView) : List ℚ :=
  positions.filterMap (·.liq_distance_pct)

/-- `risk_score(account_value, positions)` from the source. -/
def risk_score (account_value : ℚ) (positions : List PositionView) : ℚ :=
  if account_value ≤ 0 ∨ positions = [] then 0
  else
    let margin_ratio := min 1 (totalMargin positions / account_value)
    let lev_score := min 1 (maxLeverage positions / 50)
    let liq_score :=
      match (liqDists positions).min? with
      | some closest => 1 - min 1 (closest / 50)
      | none => 0.25
    let score := 100 * (0.40 * margin_ratio + 0.30 * lev_score + 0.30 * liq_score)
    max 0 (min 100 score)

/-! ## `HLClient._post_json`: per-attempt classification and retry loop

One HTTP attempt is either a transport exception or a status code with, for
status 200, the result of the JSON parse (`some j` on success).  `J` is the
parsed-payload type, opaque to the loop. -/

/-- One raw attempt outcome as seen by `_post_json`. -/
inductive Resp (J : Type)
  | netErr
  | http (status : ℕ) (parsed : Option J)
deriving DecidableEq, Repr

/-- How `_post_json` treats one attempt. -/
inductive AttemptClass (J : Type)
  | success (j : J)
  | retryable
  | fatal
deriving DecidableEq, Repr

/-- The body of the `for attempt in range(...)` loop in `_post_json`, one
attempt: the classification together with the limiter call it makes
(`note_ok` / `note_error`). -/
def classifyAttempt : Resp J → AttemptClass J × LimEvent
  | .netErr => (.retryable, .err)
  | .http status parsed =>
    if status = 200 then
      match parsed with
      | some j => (.success j, .ok)
      | none => (.retryable, .err)
    else if status = 429 ∨ status = 500 ∨ status = 502 ∨ status = 503 ∨ status = 504 then
      (.retryable, .err)
    else
      (.fatal, .ok)

/-- The `_post_json` retry loop over a fixed schedule of attempt outcomes
(list length = `retries + 1`).  Returns the payload (or `None`) and the
sequence of limiter events in order.  A retryable attempt continues only
while attempts remain (`attempt < self.retry.retries`); a fatal attempt
returns `None` immediately. -/
def postJsonRun : List (Resp J) → Option J × List LimEvent
  | [] => (none, [])
  | a :: rest =>
    match classifyAttempt a with
    | (.success j, e) => (some j, [e])
    | (.fatal, e) => (none, [e])
    | (.retryable, e) =>
      match rest with
      | [] => (none, [e])
      | _ :: _ =>
        let r := postJsonRun rest
        (r.1, e :: r.2)

/-! ## Portfolio windows and `window_return_metrics` -/

/-- One parsed portfolio window: `(timestamp_ms, value)` points, as built by
`parse_portfolio_windows`. -/
structure PortfolioWindow where
  account_values : List (ℤ × ℚ)
  pnls : List (ℤ × ℚ)
deriving DecidableEq, Repr

/-- The four outputs of `window_return_metrics`. -/
structure WindowMetrics where
  growth_pct : Option ℚ
  pnl_pct : Option ℚ
  vol_pct_daily : Option ℚ
  max_drawdown_pct : Option ℚ
deriving DecidableEq, Repr

/-- `sorted(..., key=lambda x: x[0])`: stable sort by timestamp. -/
def sortByTs (l : List (ℤ × ℚ)) : List (ℤ × ℚ) :=
  l.mergeSort (fun x y => decide (x.1 ≤ y.1))

/-- `window_return_metrics(win, baseline_eps)` from the source.  On `ℚ`
the `math.isfinite` filters of the source hold identically, so the
filtered slice is a plain `drop`. -/
def window_return_metrics (sqrtFn : ℚ → ℚ) (win : PortfolioWindow)
    (baseline_eps : ℚ := 1/1000000000) : WindowMetrics :=
  let av := win.account_values
  let pnls := win.pnls
  if av.length < 2 then
    ⟨none, none, none, none⟩
  else
    let av_sorted := sortByTs av
    let av_vals := av_sorted.map (·.2)
    -- first usable (positive) baseline: first index with `isfinite v ∧ v > eps`
    let base_idx : Option ℕ := av_vals.findIdx? (fun v => baseline_eps < v)
    let slice_start := base_idx.getD 0
    let av_slice := av_vals.drop slice_start
    -- period-over-period returns, skipping steps whose denominator ≤ eps
    let vol_pct_daily : Option ℚ :=
      if 2 ≤ av_slice.length then
        let rets := (av_slice.zip av_slice.tail).filterMap
          (fun p => if baseline_eps < p.1 then some ((p.2 - p.1) / p.1) else none)
        if 2 ≤ rets.length then (stdev sqrtFn rets).map (· * 100) else none
      else none
    let max_drawdown_pct : Option ℚ :=
      if 2 ≤ av_slice.length then (max_drawdown av_slice).map (· * 100) else none
    let growthAndPnl : Option ℚ × Option ℚ :=
      match base_idx with
      | some bi =>
        if bi < av_vals.length - 1 then
          let base := av_sorted.getD bi (0, 0)
          let end_av := av_vals.getLastD 0
          if baseline_eps < base.2 then
            let growth := some ((end_av - base.2) / base.2 * 100)
            let pnl :=
              if pnls ≠ [] ∧ 2 ≤ pnls.length then
                let pnls_sorted := sortByTs pnls
                let end_pnl := (pnls_sorted.getLastD (0, 0)).2
                let base_pnl :=
                  match pnls_sorted.find? (fun p => decide (base.1 ≤ p.1)) with
                  | some p => p.2
                  | none => (pnls_sorted.headD (0, 0)).2
                some ((end_pnl - base_pnl) / base.2 * 100)
              else none
            (growth, pnl)
          else (none, none)
        else (none, none)
      | none => (none, none)
    ⟨growthAndPnl.1, growthAndPnl.2, vol_pct_daily, max_drawdown_pct⟩

/-! ## Python `dict` as an insertion-ordered association list -/

/-- `d[k] = v`: overwrite in place if the key exists, else append. -/
def dictInsert (d : List (String × α)) (k : String) (v : α) : List (String × α) :=
  match d with
  | [] => [(k, v)]
  | (k', v') :: rest => if k' = k then (k, v) :: rest else (k', v') :: dictInsert rest k v

/-- `d.update(e)`: insert every pair of `e` into `d`, in order. -/
def dictUpdate (d e : List (String × α)) : List (String × α) :=
  e.foldl (fun d p => dictInsert d p.1 p.2) d

/-- `d.get(k)` / `d[k]`. -/
def dictLookup (d : List (String × α)) (k : String) : Option α :=
  (d.find? (fun p => p.1 = k)).map (·.2)

/-- `k in d`. -/
def dictContains (d : List (String × α)) (k : String) : Bool :=
  d.any (fun p => p.1 = k)

/-! ## `chunks` and the adaptive batch fetcher -/

/-- `chunks(lst, n)` for a positive chunk size. -/
def chunksNat (l : List α) (n : ℕ) : List (List α) :=
  if _h : l.isEmpty ∨ n = 0 then [] else l.take n :: chunksNat (l.drop n) n
termination_by l.length
decreasing_by
  simp only [List.isEmpty_iff, not_or] at _h
  have : l ≠ [] := _h.1
  have : l.length ≠ 0 := by simpa using this
  simp only [List.length_drop]
  omega

/-- `chunks(lst, n)` over a Python `int` chunk size: `range(0, len(lst), n)`
yields no indices when `n < 0`, so no chunks are produced.  (`n = 0` raises
`ValueError` in Python; no theorem below evaluates that case.) -/
def chunksZ (l : List α) (n : ℤ) : List (List α) :=
  if 1 ≤ n then chunksNat l n.toNat else []

/-- The two response oracles the fetcher calls: `_post_json` on a
`batchClearinghouseStates` payload (already reduced to the shape test
`isinstance(resp, list)`, with each slot's `isinstance(st, dict)` test as an
inner `Option`), and `clearinghouse_state` for the per-user fallback
(`Option` = the dict-shaped, truthy response). -/
structure FetchEnv (St : Type) where
  batchResp : List String → Option (List (Option St))
  userResp : String → Option St

/-- The `zip(part, resp)` loop of the fetcher: dict-shaped entries go into
`states`, the rest are appended to `failed`. -/
def zipAssign (acc : List (String × St) × List String) :
    List (String × Option St) → List (String × St) × List String
  | [] => acc
  | (a, some v) :: rest => zipAssign (dictInsert acc.1 a v, acc.2) rest
  | (a, none) :: rest => zipAssign (acc.1, acc.2 ++ [a]) rest

/-- The smallest-chunk per-user fallback loop of the fetcher. -/
def perUserFallback (env : FetchEnv St) (acc : List (String × St) × List String) :
    List String → List (String × St) × List String
  | [] => acc
  | a :: rest =>
    match env.userResp a with
    | some st => perUserFallback env (dictInsert acc.1 a st, acc.2) rest
    | none => perUserFallback env (acc.1, acc.2 ++ [a]) rest

/-- The final line of the fetcher:
`failed = [a for a in dedupe_keep_order(failed) if a not in states]`. -/
def finalizeFailed (states : List (String × St)) (failed : List String) : List String :=
  (dedupe_keep_order failed).filter (fun a => ¬ dictContains states a)

/-- Total length of a chunk list. -/
def sumLen (parts : List (List String)) : ℕ :=
  (parts.map List.length).sum

/-- The loop body of `batch_clearinghouse_states_adaptive`, processing the
chunk list `parts` into the shared accumulator `acc = (states, failed)`.
The two failure paths of the source (`resp` not a matching list; the `if`
fall-through) are collapsed into one `none` branch.  The `left`/`right`
recursive calls of the source are full calls of the outer function with
batch size `max(min_batch_size, len(half))`; here they appear as a
`chunksZ`-rechunked `goParts` run from an empty accumulator followed by the
final-line `finalizeFailed`, which is exactly the outer function's body.
The fetcher diverges when `min_batch_size ≤ 0` (a size-1 chunk splits into
itself), so the embedding carries `1 ≤ minBatch` as an argument. -/
def goParts (env : FetchEnv St) (minBatch : ℕ) (fallback : Bool) (hMin : 1 ≤ minBatch) :
    List (List String) → List (String × St) × List String → List (String × St) × List String
  | [], acc => acc
  | part :: rest, acc =>
    match (match env.batchResp part with
           | some l => if l.length = part.length then some l else none
           | none => none) with
    | some l => goParts env minBatch fallback hMin rest (zipAssign acc (part.zip l))
    | none =>
      if hsplit : minBatch < part.length then
        let mid := part.length / 2
        let left := part.take mid
        let right := part.drop mid
        let lr := goParts env minBatch fallback hMin
                    (chunksZ left ((max minBatch left.length : ℕ) : ℤ)) ([], [])
        let rr := goParts env minBatch fallback hMin
                    (chunksZ right ((max minBatch right.length : ℕ) : ℤ)) ([], [])
        goParts env minBatch fallback hMin rest
          (dictUpdate (dictUpdate acc.1 lr.1) rr.1,
           acc.2 ++ finalizeFailed lr.1 lr.2 ++ finalizeFailed rr.1 rr.2)
      else if fallback then
        goParts env minBatch fallback hMin rest (perUserFallback env acc part)
      else
        goParts env minBatch fallback hMin rest (acc.1, acc.2 ++ part)
termination_by parts _ => sumLen parts + parts.length
decreasing_by
  · simp only [sumLen, List.map_cons, List.sum_cons, List.length_cons]; omega
  · have hb : ∀ (l : List String) (k : ℕ), l.length ≤ k →
        sumLen (chunksZ l (k : ℤ)) + (chunksZ l (k : ℤ)).length ≤ l.length + 1 := by
      intro l k hk
      rw [chunksZ]
      split
      · next h1 =>
        rcases eq_or_ne l [] with rfl | hne
        · rw [chunksNat]; simp [sumLen]
        · rw [Int.toNat_ofNat, chunksNat, dif_neg (by simp [hne]; omega),
            List.take_of_length_le hk, List.drop_eq_nil_of_le hk, chunksNat]
          simp [sumLen]
      · simp [sumLen]
    have hb1 := hb (List.take (part.length / 2) part)
      (minBatch ⊔ (List.take (part.length / 2) part).length) (le_max_right _ _)
    simp only [sumLen, List.map_cons, List.sum_cons, List.length_cons, List.length_take] at hb1 ⊢
    omega
  · have hb : ∀ (l : List String) (k : ℕ), l.length ≤ k →
        sumLen (chunksZ l (k : ℤ)) + (chunksZ l (k : ℤ)).length ≤ l.length + 1 := by
      intro l k hk
      rw [chunksZ]
      split
      · next h1 =>
        rcases eq_or_ne l [] with rfl | hne
        · rw [chunksNat]; simp [sumLen]
        · rw [Int.toNat_ofNat, chunksNat, dif_neg (by simp [hne]; omega),
            List.take_of_length_le hk, List.drop_eq_nil_of_le hk, chunksNat]
          simp [sumLen]
      · simp [sumLen]
    have hb1 := hb (List.drop (part.length / 2) part)
      (minBatch ⊔ (List.drop (part.length / 2) part).length) (le_max_right _ _)
    simp only [sumLen, List.map_cons, List.sum_cons, List.length_cons, List.length_drop] at hb1 ⊢
    omega
  · simp only [sumLen, List.map_cons, List.sum_cons, List.length_cons]; omega
  · simp only [sumLen, List.map_cons, List.sum_cons, List.length_cons]; omega
  · simp only [sumLen, List.map_cons, List.sum_cons, List.length_cons]; omega

/-- `HLClient.batch_clearinghouse_states_adaptive(users, batch_size,
min_batch_size, fallback_per_user)`. -/
def batch_clearinghouse_states_adaptive (env : FetchEnv St) (users : List String)
    (batchSize : ℤ) (minBatch : ℕ) (fallback : Bool) (hMin : 1 ≤ minBatch) :
    List (String × St) × List String :=
  let r := goParts env minBatch fallback hMin (chunksZ users batchSize) ([], [])
  (r.1, finalizeFailed r.1 r.2)

/-! ## `apply_ranks`

`apply_ranks` first stores `compute_rank_scores(w)` on each wallet and then
ranks by those scores; a wallet is modelled as its address plus the four
stored rank scores. -/

/-- The four rank keys. -/
inductive RankKey
  | risk
  | pnl
  | stability
  | conviction
deriving DecidableEq, Repr

/-- The `rank_scores` entry of one wallet (output of `compute_rank_scores`). -/
structure RankScores where
  risk : ℚ
  pnl : ℚ
  stability : ℚ
  conviction : ℚ
deriving DecidableEq, Repr

/-- A wallet as seen by the ranking pass. -/
structure WalletR where
  address : String
  scores : RankScores
deriving DecidableEq, Repr

/-- `x["rank_scores"][key]`. -/
def scoreOf (w : WalletR) : RankKey → ℚ
  | .risk => w.scores.risk
  | .pnl => w.scores.pnl
  | .stability => w.scores.stability
  | .conviction => w.scores.conviction

/-- `sorted(wallets, key=score, reverse=True)`: stable descending sort.
With `reverse=True` CPython keeps equal-keyed elements in original order,
which is merge sort with the comparison `score(b) ≤ score(a)`. -/
def sortDescByScore (key : RankKey) (wallets : List WalletR) : List WalletR :=
  wallets.mergeSort (fun a b => decide (scoreOf b key ≤ scoreOf a key))

/-- `ranks[key]`: the per-key dict `address → 1-based position` built by
`for i, w in enumerate(ordered, 1): ranks[key][w["address"]] = i`. -/
def rankDict (key : RankKey) (wallets : List WalletR) : List (String × ℕ) :=
  let ordered := sortDescByScore key wallets
  ((ordered.map (·.address)).zip (List.range' 1 ordered.length)).foldl
    (fun d p => dictInsert d p.1 p.2) []

/-- The `ranks` record stored on each wallet (`.get` on a dict is `Option`). -/
structure RanksOut where
  risk : Option ℕ
  pnl : Option ℕ
  stability : Option ℕ
  conviction : Option ℕ
deriving DecidableEq, Repr

/-- Project one key out of a `RanksOut`. -/
def getRank (r : RanksOut) : RankKey → Option ℕ
  | .risk => r.risk
  | .pnl => r.pnl
  | .stability => r.stability
  | .conviction => r.conviction

/-- `apply_ranks(wallets)`: each wallet receives
`{k: ranks[k].get(w["address"])}`. -/
def apply_ranks (wallets : List WalletR) : List (WalletR × RanksOut) :=
  wallets.map (fun w =>
    (w, ⟨dictLookup (rankDict .risk wallets) w.address,
         dictLookup (rankDict .pnl wallets) w.address,
         dictLookup (rankDict .stability wallets) w.address,
         dictLookup (rankDict .conviction wallets) w.address⟩))

/-! ## Fills and `infer_position_ages_from_fills` -/

/-- One fill, with the fields the age inference reads.  `time` is `Option`:
a fill may lack a timestamp (`f.get("time")`). -/
structure Fill where
  time : Option ℤ
  coin : String
  side : String
  sz : ℚ
  startPosition : ℚ
deriving DecidableEq, Repr

/-- The body of the per-fill loop: the three sequential `if`s updating the
tracked open timestamp.  A fill without a timestamp is skipped. -/
def ageStep (eps : ℚ) (ot : Option ℤ) (f : Fill) : Option ℤ :=
  match f.time with
  | none => ot
  | some t =>
    let startP := f.startPosition
    let delta := if f.side = "B" then f.sz else -f.sz
    let endP := startP + delta
    let ot1 := if |startP| < eps ∧ |endP| > eps then some t else ot
    let ot2 := if |endP| < eps then none else ot1
    if startP * endP < 0 then some t else ot2

/-- `sorted(fs, key=lambda x: int(x.get("time", 0)))`. -/
def sortFills (fs : List Fill) : List Fill :=
  fs.mergeSort (fun x y => decide (x.time.getD 0 ≤ y.time.getD 0))

/-- `infer_position_ages_from_fills(fills, positions)` from the source.
`now` is the millisecond timestamp of `utcnow()`; ages are in days,
`(now − open).total_seconds() / 86400`.  Grouping `by_coin` keys coins in
first-appearance order; each group keeps fill order. -/
def infer_position_ages_from_fills (now_ms : ℤ) (fills : List Fill)
    (positions : List PositionView) : List (String × ℚ) :=
  let needed := positions.map (·.coin)
  let cur_by_coin := positions.foldl (fun d p => dictInsert d p.coin p.size) []
  let eps : ℚ := 1/10000000000
  let coins := dedupe_keep_order ((fills.filter (fun f => needed.contains f.coin)).map (·.coin))
  coins.foldl (fun ages coin =>
    let fs_sorted := sortFills (fills.filter (fun f => f.coin = coin))
    let open_time := fs_sorted.foldl (ageStep eps) none
    let cur_size := (dictLookup cur_by_coin coin).getD 0
    if |cur_size| < eps then ages
    else
      let open_time2 :=
        match open_time with
        | some t => some t
        | none =>
          match fs_sorted with
          | [] => none
          | f :: _ => f.time
      match open_time2 with
      | some t => dictInsert ages coin (((now_ms - t : ℤ) : ℚ) / 1000 / 86400)
      | none => ages) []

/-! # Theorems -/

/-! ## C8: rate limiter cooldown invariant -/

theorem runLimiter_bounds (minI maxI : ℚ) (h0 : 0 ≤ minI) (h1 : minI ≤ maxI) :
    ∀ (events : List LimEvent) (c : ℚ), 0 ≤ c → c ≤ maxI →
      0 ≤ runLimiter minI maxI c events ∧ runLimiter minI maxI c events ≤ maxI := by
  intro events
  induction events with
  | nil => intro c hc0 hc1; exact ⟨hc0, hc1⟩
  | cons e rest ih =>
    intro c hc0 hc1
    cases e with
    | err =>
      refine ih (note_error minI maxI c) ?_ ?_
      · exact le_min (le_trans h0 h1) (le_trans h0 (le_max_right _ _))
      · exact min_le_left _ _
    | ok =>
      refine ih (note_ok c) ?_ ?_
      · exact le_max_left _ _
      · refine max_le (le_trans h0 h1) ?_
        nlinarith

/-- **C8**: for `0 ≤ min_interval ≤ max_interval` and initial cooldown `0`,
`note_error` sets the cooldown to `min(max_interval, max(cooldown·1.6,
min_interval))`, `note_ok` sets it to `max(0, cooldown·0.85 − 0.01)`, and any
sequence of such calls keeps the cooldown within `[0, max_interval]`. -/
theorem rateLimiter_cooldown_invariant (minI maxI : ℚ) (events : List LimEvent)
    (h0 : 0 ≤ minI) (h1 : minI ≤ maxI) :
    (∀ c, note_error minI maxI c = min maxI (max (c * 1.6) minI)) ∧
    (∀ c, note_ok c = max 0 (c * 0.85 - 0.01)) ∧
    0 ≤ runLimiter minI maxI 0 events ∧ runLimiter minI maxI 0 events ≤ maxI := by
  refine ⟨fun c => rfl, fun c => rfl, ?_⟩
  exact runLimiter_bounds minI maxI h0 h1 events 0 le_rfl (le_trans h0 h1)

theorem rateLimiter_cooldown_invariant_witness :
    (0 : ℚ) ≤ 0.15 ∧ (0.15 : ℚ) ≤ 1 ∧
    0 ≤ runLimiter 0.15 1 0 [.err, .ok, .err] ∧
    runLimiter 0.15 1 0 [.err, .ok, .err] ≤ 1 := by
  refine ⟨by norm_num, by norm_num, ?_⟩
  exact (rateLimiter_cooldown_invariant 0.15 1 [.err, .ok, .err]
    (by norm_num) (by norm_num)).2.2

/-! ## C9: `style_label` with null metrics -/

/-- **C9**: when both monthly volatility and monthly drawdown are `None`,
`style_label` substitutes `0.0` for both and the label depends on risk alone:
aggressive iff `risk ≥ 70`, balanced iff `40 ≤ risk < 70`, stable otherwise. -/
theorem style_label_null_metrics (r : ℚ) :
    style_label r none none = style_label r (some 0) (some 0) ∧
    (style_label r none none = "aggressive" ↔ 70 ≤ r) ∧
    (style_label r none none = "balanced" ↔ 40 ≤ r ∧ r < 70) ∧
    (style_label r none none = "stable" ↔ r < 40) := by
  refine ⟨rfl, ?_, ?_, ?_⟩ <;>
  · simp only [style_label, Option.getD_none]
    norm_num
    split_ifs with h1 h2 <;> simp_all
    all_goals linarith

/-! ## C10: `max_drawdown` totality and bounds -/

theorem mddStep_eq (st : ℚ × ℚ) (v : ℚ) :
    mddStep st v = (if v > st.1 then v else st.1,
      max st.2 (if (if v > st.1 then v else st.1) ≠ 0
        then ((if v > st.1 then v else st.1) - v) / (if v > st.1 then v else st.1)
        else 0)) := rfl

theorem foldl_mddStep_nonneg :
    ∀ (l : List ℚ) (st : ℚ × ℚ), 0 ≤ st.2 → 0 ≤ (l.foldl mddStep st).2 := by
  intro l
  induction l with
  | nil => intro st h; exact h
  | cons v rest ih =>
    intro st h
    refine ih _ ?_
    rw [mddStep_eq]
    exact le_trans h (le_max_left _ _)

theorem foldl_mddStep_le_one :
    ∀ (l : List ℚ) (st : ℚ × ℚ), (∀ v ∈ l, 0 ≤ v) → 0 ≤ st.1 → st.2 ≤ 1 →
      (l.foldl mddStep st).2 ≤ 1 := by
  intro l
  induction l with
  | nil => intro st _ _ h2; exact h2
  | cons v rest ih =>
    intro st hl h1 h2
    have hv : 0 ≤ v := hl v (List.mem_cons_self _ _)
    have hpk0 : 0 ≤ (if v > st.1 then v else st.1) := by split <;> linarith
    refine ih _ (fun w hw => hl w (List.mem_cons_of_mem _ hw)) ?_ ?_
    · rw [mddStep_eq]
      exact hpk0
    · rw [mddStep_eq]
      refine max_le h2 ?_
      rcases eq_or_ne (if v > st.1 then v else st.1) 0 with hz | hz
      · rw [if_neg (by simp [hz])]
        norm_num
      · rw [if_pos hz]
        have hpos : 0 < (if v > st.1 then v else st.1) := lt_of_le_of_ne hpk0 (Ne.symm hz)
        rw [div_le_one hpos]
        split <;> linarith

/-- **C10**: `max_drawdown` is total: `None` for fewer than 2 elements, and
otherwise `Some` of a non-negative value (a step with running peak `0` is
guarded and contributes drawdown `0.0`); for a series of non-negative values
the result lies in `[0, 1]`. -/
theorem max_drawdown_total (series : List ℚ) :
    (series.length < 2 → max_drawdown series = none) ∧
    (2 ≤ series.length → ∃ x, max_drawdown series = some x ∧ 0 ≤ x) ∧
    ((∀ v ∈ series, 0 ≤ v) → 2 ≤ series.length →
      ∃ x, max_drawdown series = some x ∧ 0 ≤ x ∧ x ≤ 1) := by
  refine ⟨fun h => by simp [max_drawdown, h], ?_, ?_⟩
  · intro h
    rw [max_drawdown, if_neg (by omega)]
    exact ⟨_, rfl, foldl_mddStep_nonneg series _ le_rfl⟩
  · intro hnn h
    rw [max_drawdown, if_neg (by omega)]
    refine ⟨_, rfl, foldl_mddStep_nonneg series _ le_rfl, ?_⟩
    refine foldl_mddStep_le_one series _ hnn ?_ (by norm_num)
    cases series with
    | nil => simp at h
    | cons v rest => exact hnn v (List.mem_cons_self _ _)

theorem max_drawdown_total_witness :
    (∀ v ∈ [(100 : ℚ), 50], 0 ≤ v) ∧ 2 ≤ [(100 : ℚ), 50].length ∧
    ∃ x, max_drawdown [(100 : ℚ), 50] = some x ∧ 0 ≤ x ∧ x ≤ 1 := by
  refine ⟨by norm_num, by norm_num, ?_⟩
  exact (max_drawdown_total [100, 50]).2.2 (by norm_num) (by norm_num)

/-! ## C6: `risk_score` monotonicity and bounds -/

/-- **C6**: `risk_score` is clamped to `[0, 100]` for every input; for an
account with positive equity and at least one position it is non-decreasing
in total margin used, non-decreasing in maximum leverage, and non-decreasing
as the nearest known liquidation distance decreases, holding the other
aggregates fixed. -/
theorem risk_score_monotone_bounded :
    (∀ av pos, 0 ≤ risk_score av pos ∧ risk_score av pos ≤ 100) ∧
    (∀ (av : ℚ) (p q : List PositionView), 0 < av → p ≠ [] → q ≠ [] →
      totalMargin p ≤ totalMargin q → maxLeverage p = maxLeverage q →
      liqDists p = liqDists q → risk_score av p ≤ risk_score av q) ∧
    (∀ (av : ℚ) (p q : List PositionView), 0 < av → p ≠ [] → q ≠ [] →
      totalMargin p = totalMargin q → maxLeverage p ≤ maxLeverage q →
      liqDists p = liqDists q → risk_score av p ≤ risk_score av q) ∧
    (∀ (av : ℚ) (p q : List PositionView) (cp cq : ℚ), 0 < av → p ≠ [] → q ≠ [] →
      totalMargin p = totalMargin q → maxLeverage p = maxLeverage q →
      (liqDists p).min? = some cp → (liqDists q).min? = some cq → cq ≤ cp →
      risk_score av p ≤ risk_score av q) := by
  refine ⟨?_, ?_, ?_, ?_⟩
  · intro av pos
    rw [risk_score]
    split
    · norm_num
    · constructor
      · exact le_max_left _ _
      · exact max_le (by norm_num) (min_le_left _ _)
  · intro av p q hav hp hq hm hlev hliq
    rw [risk_score, risk_score, if_neg (by simp [hp]; linarith), if_neg (by simp [hq]; linarith)]
    rw [hlev, hliq]
    have h1 : totalMargin p / av ≤ totalMargin q / av := by gcongr
    have h2 : min 1 (totalMargin p / av) ≤ min 1 (totalMargin q / av) :=
      min_le_min le_rfl h1
    refine max_le_max le_rfl (min_le_min le_rfl ?_)
    set liqs := (match (liqDists q).min? with
      | some closest => 1 - min 1 (closest / 50)
      | none => (0.25 : ℚ))
    nlinarith
  · intro av p q hav hp hq hm hlev hliq
    rw [risk_score, risk_score, if_neg (by simp [hp]; linarith), if_neg (by simp [hq]; linarith)]
    rw [hm, hliq]
    have h1 : maxLeverage p / 50 ≤ maxLeverage q / 50 := by gcongr
    have h2 : min 1 (maxLeverage p / 50) ≤ min 1 (maxLeverage q / 50) :=
      min_le_min le_rfl h1
    refine max_le_max le_rfl (min_le_min le_rfl ?_)
    set liqs := (match (liqDists q).min? with
      | some closest => 1 - min 1 (closest / 50)
      | none => (0.25 : ℚ))
    nlinarith
  · intro av p q cp cq hav hp hq hm hlev hcp hcq hle
    rw [risk_score, risk_score, if_neg (by simp [hp]; linarith), if_neg (by simp [hq]; linarith)]
    rw [hm, hlev, hcp, hcq]
    have h1 : cq / 50 ≤ cp / 50 := by gcongr
    have h2 : min 1 (cq / 50) ≤ min 1 (cp / 50) := min_le_min le_rfl h1
    refine max_le_max le_rfl (min_le_min le_rfl ?_)
    nlinarith

theorem risk_score_monotone_bounded_witness :
    (0 : ℚ) < 1000 ∧ ([⟨"BTC", 1, 10, 100, some 20⟩] : List PositionView) ≠ [] ∧
    ([⟨"BTC", 1, 10, 200, some 20⟩] : List PositionView) ≠ [] ∧
    totalMargin [⟨"BTC", 1, 10, 100, some 20⟩] ≤ totalMargin [⟨"BTC", 1, 10, 200, some 20⟩] ∧
    maxLeverage [⟨"BTC", 1, 10, 100, some 20⟩] = maxLeverage [⟨"BTC", 1, 10, 200, some 20⟩] ∧
    liqDists [⟨"BTC", 1, 10, 100, some 20⟩] = liqDists [⟨"BTC", 1, 10, 200, some 20⟩] ∧
    risk_score 1000 [⟨"BTC", 1, 10, 100, some 20⟩] ≤ risk_score 1000 [⟨"BTC", 1, 10, 200, some 20⟩] := by
  refine ⟨by norm_num, by simp, by simp, by norm_num [totalMargin], by norm_num [maxLeverage],
    by rfl, ?_⟩
  exact risk_score_monotone_bounded.2.1 1000 _ _ (by norm_num) (by simp) (by simp)
    (by norm_num [totalMargin]) (by norm_num [maxLeverage]) (by rfl)

/-! ## C3: transport classification of HTTP statuses -/

/-- **C3 (counterexample)**: the claim classifies every 5xx status as
retryable with `note_error()`; the code treats status 501 as fatal, calls
`note_ok()`, and returns failure immediately (one limiter event even though
a second attempt was available). -/
theorem post_json_5xx_counterexample :
    classifyAttempt (Resp.http 501 (none : Option Unit)) = (.fatal, .ok) ∧
    classifyAttempt (Resp.http 501 (none : Option Unit)) ≠ (.retryable, .err) ∧
    postJsonRun [Resp.http 501 (none : Option Unit), Resp.http 501 none] =
      (none, [LimEvent.ok]) := by
  refine ⟨rfl, by decide, rfl⟩

/-- **C3 (amended)**: an attempt with status 429, 500, 502, 503 or 504 is
classified retryable and calls `note_error()`; an attempt with any other
non-200 status — including 501 and 505–599 — is classified fatal, calls
`note_ok()`, and the loop returns failure immediately with no further
attempt. -/
theorem post_json_classification (J : Type) (s : ℕ) (b : Option J) (rest : List (Resp J)) :
    (s = 429 ∨ s = 500 ∨ s = 502 ∨ s = 503 ∨ s = 504 →
      classifyAttempt (Resp.http s b) = (.retryable, .err)) ∧
    (s ≠ 200 → s ≠ 429 → s ≠ 500 → s ≠ 502 → s ≠ 503 → s ≠ 504 →
      classifyAttempt (Resp.http s b) = (.fatal, .ok) ∧
      postJsonRun (Resp.http s b :: rest) = (none, [.ok])) := by
  constructor
  · intro hs
    have h200 : s ≠ 200 := by rcases hs with h | h | h | h | h <;> omega
    simp only [classifyAttempt, if_neg h200, if_pos hs]
  · intro h200 h429 h500 h502 h503 h504
    have hcl : classifyAttempt (Resp.http s b) = (.fatal, .ok) := by
      simp only [classifyAttempt, if_neg h200]
      rw [if_neg (by tauto)]
    refine ⟨hcl, ?_⟩
    rw [postJsonRun, hcl]

theorem post_json_classification_witness :
    ((429 : ℕ) = 429 ∨ (429 : ℕ) = 500 ∨ (429 : ℕ) = 502 ∨ (429 : ℕ) = 503 ∨ (429 : ℕ) = 504) ∧
    classifyAttempt (Resp.http 429 (none : Option Unit)) = (.retryable, .err) ∧
    ((418 : ℕ) ≠ 200 ∧ (418 : ℕ) ≠ 429 ∧ (418 : ℕ) ≠ 500 ∧ (418 : ℕ) ≠ 502 ∧
      (418 : ℕ) ≠ 503 ∧ (418 : ℕ) ≠ 504) ∧
    classifyAttempt (Resp.http 418 (none : Option Unit)) = (.fatal, .ok) ∧
    postJsonRun [Resp.http 418 (none : Option Unit)] = (none, [.ok]) := by
  refine ⟨by norm_num, ?_, by norm_num, ?_, ?_⟩
  · exact (post_json_classification Unit 429 none []).1 (by norm_num)
  · exact ((post_json_classification Unit 418 none []).2 (by norm_num) (by norm_num)
      (by norm_num) (by norm_num) (by norm_num) (by norm_num)).1
  · exact ((post_json_classification Unit 418 none []).2 (by norm_num) (by norm_num)
      (by norm_num) (by norm_num) (by norm_num) (by norm_num)).2

/-! ## C2: degenerate windows -/

/-- Shared computation for C2: behaviour of `window_return_metrics` on a
short series and on a series with no usable baseline. -/
theorem window_metrics_low_aux (sqrtFn : ℚ → ℚ) (win : PortfolioWindow) (eps : ℚ) :
    (win.account_values.length < 2 →
      window_return_metrics sqrtFn win eps = ⟨none, none, none, none⟩) ∧
    (2 ≤ win.account_values.length → (∀ p ∈ win.account_values, p.2 ≤ eps) →
      (window_return_metrics sqrtFn win eps).growth_pct = none ∧
      (window_return_metrics sqrtFn win eps).pnl_pct = none ∧
      (window_return_metrics sqrtFn win eps).vol_pct_daily = none ∧
      ∃ x, (window_return_metrics sqrtFn win eps).max_drawdown_pct = some x) := by
  constructor
  · intro h
    rw [window_return_metrics, if_pos h]
  · intro hlen hall
    have hperm : (sortByTs win.account_values).Perm win.account_values :=
      List.mergeSort_perm _ _
    have hlen' : (sortByTs win.account_values).length = win.account_values.length :=
      hperm.length_eq
    have hvals : ∀ v ∈ (sortByTs win.account_values).map (fun x => x.2), v ≤ eps := by
      intro v hv
      obtain ⟨p, hp, rfl⟩ := List.mem_map.mp hv
      exact hall p (hperm.mem_iff.mp hp)
    have hbase : ((sortByTs win.account_values).map (fun x => x.2)).findIdx?
        (fun v => decide (eps < v)) = none := by
      rw [List.findIdx?_eq_none_iff]
      intro v hv
      simpa using not_lt.mpr (hvals v hv)
    have hrets : (((sortByTs win.account_values).map (fun x => x.2)).zip
        ((sortByTs win.account_values).map (fun x => x.2)).tail).filterMap
        (fun p => if eps < p.1 then some ((p.2 - p.1) / p.1) else none) = [] := by
      rw [List.filterMap_eq_nil_iff]
      intro p hp
      have h1 : p.1 ∈ (sortByTs win.account_values).map (fun x => x.2) :=
        (List.of_mem_zip hp).1
      rw [if_neg (not_lt.mpr (hvals p.1 h1))]
    have hlen2 : 2 ≤ ((sortByTs win.account_values).map (fun x => x.2)).length := by
      rw [List.length_map, hlen']; exact hlen
    rw [window_return_metrics, if_neg (by omega)]
    simp only [hbase, Option.getD_none, List.drop_zero, hrets, if_pos hlen2,
      List.length_nil]
    norm_num
    rw [max_drawdown, if_neg (by omega)]
    exact ⟨_, _, rfl, rfl⟩

/-- **C2 (counterexample)**: the window `[(1, 0.0), (2, 0.0)]` has ≥ 2 points,
all of them ≤ the baseline epsilon, yet `window_return_metrics` does not
return four nulls: its `max_drawdown_pct` output is non-null. -/
theorem window_metrics_all_low_counterexample :
    ¬ (window_return_metrics id ⟨[(1, 0), (2, 0)], []⟩ (1/1000000000) =
        ⟨none, none, none, none⟩) := by
  intro h
  obtain ⟨x, hx⟩ :=
    ((window_metrics_low_aux id ⟨[(1, 0), (2, 0)], []⟩ (1/1000000000)).2
      (by norm_num) (by intro p hp; fin_cases hp <;> norm_num)).2.2.2
  rw [h] at hx
  exact Option.noConfusion hx

/-- **C2 (amended)**: if a window's account-value series has fewer than 2
points, all four metrics are null.  If it has ≥ 2 points but every value is
≤ the baseline epsilon, growth %, PnL % and daily volatility % are null,
while max drawdown % is non-null (computed over the full sorted series). -/
theorem window_metrics_degenerate (sqrtFn : ℚ → ℚ) (win : PortfolioWindow) (eps : ℚ) :
    (win.account_values.length < 2 →
      window_return_metrics sqrtFn win eps = ⟨none, none, none, none⟩) ∧
    (2 ≤ win.account_values.length → (∀ p ∈ win.account_values, p.2 ≤ eps) →
      (window_return_metrics sqrtFn win eps).growth_pct = none ∧
      (window_return_metrics sqrtFn win eps).pnl_pct = none ∧
      (window_return_metrics sqrtFn win eps).vol_pct_daily = none ∧
      ∃ x, (window_return_metrics sqrtFn win eps).max_drawdown_pct = some x) :=
  window_metrics_low_aux sqrtFn win eps

theorem window_metrics_degenerate_witness :
    ((PortfolioWindow.mk [(1, 5)] []).account_values.length < 2 ∧
      window_return_metrics id ⟨[(1, 5)], []⟩ (1/1000000000) = ⟨none, none, none, none⟩) ∧
    (2 ≤ (PortfolioWindow.mk [(1, 0), (2, 0)] []).account_values.length ∧
      (∀ p ∈ (PortfolioWindow.mk [(1, 0), (2, 0)] []).account_values,
        p.2 ≤ (1/1000000000 : ℚ)) ∧
      (window_return_metrics id ⟨[(1, 0), (2, 0)], []⟩ (1/1000000000)).growth_pct = none ∧
      (window_return_metrics id ⟨[(1, 0), (2, 0)], []⟩ (1/1000000000)).pnl_pct = none ∧
      (window_return_metrics id ⟨[(1, 0), (2, 0)], []⟩ (1/1000000000)).vol_pct_daily = none ∧
      ∃ x, (window_return_metrics id ⟨[(1, 0), (2, 0)], []⟩
        (1/1000000000)).max_drawdown_pct = some x) := by
  constructor
  · exact ⟨by norm_num,
      (window_metrics_degenerate id ⟨[(1, 5)], []⟩ (1/1000000000)).1 (by norm_num)⟩
  · refine ⟨by norm_num, by intro p hp; fin_cases hp <;> norm_num, ?_⟩
    exact (window_metrics_degenerate id ⟨[(1, 0), (2, 0)], []⟩ (1/1000000000)).2
      (by norm_num) (by intro p hp; fin_cases hp <;> norm_num)

/-! ## C5: baseline selection and growth on `[0, 0, 100, 110]` -/

/-- **C5**: on the account-value series `[0.0, 0.0, 100.0, 110.0]` at strictly
increasing timestamps, the baseline scan selects index 2 (the first value
above the positive epsilon, `100.0`) and growth % is
`(110 − 100) / 100 × 100 = 10`. -/
theorem window_growth_example (sqrtFn : ℚ → ℚ) (t1 t2 t3 t4 : ℤ)
    (h12 : t1 < t2) (h23 : t2 < t3) (h34 : t3 < t4) :
    ((sortByTs [(t1, 0), (t2, 0), (t3, 100), (t4, 110)]).map (fun x => x.2)).findIdx?
      (fun v => decide ((1/1000000000 : ℚ) < v)) = some 2 ∧
    (window_return_metrics sqrtFn ⟨[(t1, 0), (t2, 0), (t3, 100), (t4, 110)], []⟩
      (1/1000000000)).growth_pct = some 10 := by
  have hsort : sortByTs [(t1, 0), (t2, 0), (t3, 100), (t4, 110)] =
      [(t1, 0), (t2, 0), (t3, 100), (t4, 110)] := by
    apply List.mergeSort_of_sorted
    simp only [List.pairwise_cons, List.mem_cons, List.mem_singleton, List.not_mem_nil]
    norm_num
    omega
  have hidx : (([(t1, 0), (t2, 0), (t3, 100), (t4, 110)] :
      List (ℤ × ℚ)).map (fun x => x.2)).findIdx?
      (fun v => decide ((1/1000000000 : ℚ) < v)) = some 2 := by
    norm_num [List.findIdx?_cons]
  refine ⟨by rw [hsort]; exact hidx, ?_⟩
  rw [window_return_metrics, if_neg (by norm_num)]
  simp only [hsort, hidx]
  norm_num

theorem window_growth_example_witness :
    ((1 : ℤ) < 2 ∧ (2 : ℤ) < 3 ∧ (3 : ℤ) < 4) ∧
    ((sortByTs [(1, 0), (2, 0), (3, 100), (4, 110)]).map (fun x => x.2)).findIdx?
      (fun v => decide ((1/1000000000 : ℚ) < v)) = some 2 ∧
    (window_return_metrics id ⟨[(1, 0), (2, 0), (3, 100), (4, 110)], []⟩
      (1/1000000000)).growth_pct = some 10 :=
  ⟨⟨by norm_num, by norm_num, by norm_num⟩,
    window_growth_example id 1 2 3 4 (by norm_num) (by norm_num) (by norm_num)⟩

/-! ## C7: position age from the reopening fill -/

/-- **C7**: a fill log for one instrument that opens a position at `t0`
(size `a` from a flat book), closes it at `t1` (back to exactly 0), and
reopens it at `t2` (size `b`), with the current position size `b` non-zero,
yields the age measured from `t2`, not from `t0`. -/
theorem age_from_reopen (now t0 t1 t2 : ℤ) (a b : ℚ) (c : String)
    (h01 : t0 < t1) (h12 : t1 < t2)
    (ha : 1/10000000000 < a) (hb : 1/10000000000 < b)
    (pos : PositionView) (hcoin : pos.coin = c) (hsize : pos.size = b) :
    infer_position_ages_from_fills now
      [⟨some t0, c, "B", a, 0⟩, ⟨some t1, c, "A", a, a⟩, ⟨some t2, c, "B", b, 0⟩]
      [pos] = [(c, ((now - t2 : ℤ) : ℚ) / 1000 / 86400)] ∧
    (((now - t2 : ℤ) : ℚ) / 1000 / 86400 ≠ ((now - t0 : ℤ) : ℚ) / 1000 / 86400) := by
  have ha0 : (0 : ℚ) < a := lt_trans (by norm_num) ha
  have hb0 : (0 : ℚ) < b := lt_trans (by norm_num) hb
  have habs_a : |a| = a := abs_of_pos ha0
  have habs_b : |b| = b := abs_of_pos hb0
  have hsort : sortFills [⟨some t0, c, "B", a, 0⟩, ⟨some t1, c, "A", a, a⟩,
      ⟨some t2, c, "B", b, 0⟩] =
      [⟨some t0, c, "B", a, 0⟩, ⟨some t1, c, "A", a, a⟩, ⟨some t2, c, "B", b, 0⟩] := by
    apply List.mergeSort_of_sorted
    refine List.Pairwise.cons ?_ (List.Pairwise.cons ?_ (List.pairwise_singleton _ _))
    · intro f hf
      rcases List.mem_cons.mp hf with rfl | hf
      · simp only [Option.getD_some, decide_eq_true_eq]
        omega
      · rcases List.mem_singleton.mp hf with rfl
        simp only [Option.getD_some, decide_eq_true_eq]
        omega
    · intro f hf
      rcases List.mem_singleton.mp hf with rfl
      simp only [Option.getD_some, decide_eq_true_eq]
      omega
  have hstep0 : ageStep (1/10000000000) none ⟨some t0, c, "B", a, 0⟩ = some t0 := by
    simp only [ageStep]
    rw [if_neg (by simp), if_neg (by simp only [zero_add, if_true, reduceIte, habs_a]
          <;> simp [habs_a] <;> linarith),
        if_pos ⟨by norm_num, by simpa [habs_a] using ha⟩]
  have hstep1 : ageStep (1/10000000000) (some t0) ⟨some t1, c, "A", a, a⟩ = none := by
    simp only [ageStep]
    rw [if_neg (by simp), if_pos (by rw [if_neg (by decide)]; norm_num)]
  have hstep2 : ageStep (1/10000000000) none ⟨some t2, c, "B", b, 0⟩ = some t2 := by
    simp only [ageStep]
    rw [if_neg (by simp), if_neg (by simp [habs_b] <;> linarith),
        if_pos ⟨by norm_num, by simpa [habs_b] using hb⟩]
  constructor
  · rw [infer_position_ages_from_fills]
    simp only [hcoin, hsize, List.map_cons, List.map_nil, List.foldl_cons, List.foldl_nil,
      dictInsert, List.filter, List.contains_cons, beq_self_eq_true, Bool.or_self,
      Bool.or_false, decide_True, dedupe_keep_order, dedupeGo, List.not_mem_nil,
      if_false, List.mem_cons, List.mem_singleton, eq_self_iff_true, if_true, or_self,
      or_false, or_true, List.elem_nil]
    rw [hsort]
    simp only [List.foldl_cons, List.foldl_nil, hstep0, hstep1, hstep2]
    rw [if_neg (by simp [dictLookup, habs_b]; linarith)]
  · intro hcon
    have h2 : t2 = t0 := by
      field_simp at hcon
      exact_mod_cast hcon
    omega

theorem age_from_reopen_witness :
    infer_position_ages_from_fills 200000
      [⟨some 1000, "BTC", "B", 1, 0⟩, ⟨some 2000, "BTC", "A", 1, 1⟩,
       ⟨some 3000, "BTC", "B", 1, 0⟩]
      [⟨"BTC", 1, 5, 50, none⟩] = [("BTC", ((200000 - 3000 : ℤ) : ℚ) / 1000 / 86400)] ∧
    ((200000 - 3000 : ℤ) : ℚ) / 1000 / 86400 ≠ ((200000 - 1000 : ℤ) : ℚ) / 1000 / 86400 :=
  age_from_reopen 200000 1000 2000 3000 1 1 "BTC" (by norm_num) (by norm_num)
    (by norm_num) (by norm_num) ⟨"BTC", 1, 5, 50, none⟩ rfl rfl

/-! ## C4: stable descending ranking -/

theorem dictInsert_of_not_mem {α : Type} (d : List (String × α)) (k : String) (v : α)
    (h : ∀ q ∈ d, q.1 ≠ k) : dictInsert d k v = d ++ [(k, v)] := by
  induction d with
  | nil => rfl
  | cons q rest ih =>
    rw [dictInsert]
    rw [if_neg (h q (List.mem_cons_self _ _))]
    rw [ih (fun q' hq' => h q' (List.mem_cons_of_mem _ hq'))]
    rfl

theorem foldl_dictInsert_eq_append {α : Type} :
    ∀ (ps : List (String × α)) (d : List (String × α)),
      (∀ k ∈ ps.map Prod.fst, ∀ q ∈ d, q.1 ≠ k) → (ps.map Prod.fst).Nodup →
      ps.foldl (fun d p => dictInsert d p.1 p.2) d = d ++ ps := by
  intro ps
  induction ps with
  | nil => intro d _ _; simp
  | cons p rest ih =>
    intro d hdisj hnd
    rw [List.foldl_cons]
    rw [dictInsert_of_not_mem d p.1 p.2
      (hdisj p.1 (by simp))]
    rw [ih (d ++ [(p.1, p.2)]) ?_ (by simpa using hnd.of_cons)]
    · simp
    · intro k hk q hq
      rcases List.mem_append.mp hq with hq | hq
      · exact hdisj k (by simp [hk]) q hq
      · rcases List.mem_singleton.mp hq with rfl
        simp only [List.map_cons, List.nodup_cons] at hnd
        intro hcon
        exact hnd.1 (hcon ▸ hk)

theorem dictLookup_zip_range' :
    ∀ (ks : List String) (s : ℕ) (k : String), k ∈ ks → ks.Nodup →
      dictLookup (ks.zip (List.range' s ks.length)) k = some (s + ks.indexOf k) := by
  intro ks
  induction ks with
  | nil => intro s k hk; exact absurd hk (List.not_mem_nil k)
  | cons k0 rest ih =>
    intro s k hk hnd
    rw [List.length_cons, List.range'_succ, List.zip_cons_cons]
    rcases eq_or_ne k0 k with rfl | hne
    · rw [dictLookup]
      simp [List.find?]
    · rw [dictLookup, List.find?]
      rw [show (decide ((k0, s).1 = k)) = false by simp [hne]]
      rw [← dictLookup]
      have hk' : k ∈ rest := by
        rcases List.mem_cons.mp hk with rfl | hk'
        · exact absurd rfl hne
        · exact hk'
      rw [ih (s + 1) k hk' hnd.of_cons]
      rw [List.indexOf_cons_ne _ (by simpa using hne)]
      congr 1
      omega

theorem sublist_pair_index_lt {α : Type} [DecidableEq α] :
    ∀ (l : List α) (a b : α), l.Nodup → List.Sublist [a, b] l →
      l.indexOf a < l.indexOf b := by
  intro l
  induction l with
  | nil => intro a b _ h; exact absurd h (by simp)
  | cons x rest ih =>
    intro a b hnd h
    cases h with
    | cons _ h' =>
      have ha : a ∈ rest := h'.subset (by simp)
      have hb : b ∈ rest := h'.subset (by simp)
      have hxa : a ≠ x := fun hcon => (List.nodup_cons.mp hnd).1 (hcon ▸ ha)
      have hxb : b ≠ x := fun hcon => (List.nodup_cons.mp hnd).1 (hcon ▸ hb)
      rw [List.indexOf_cons_ne _ (by simpa using fun h => hxa h.symm),
        List.indexOf_cons_ne _ (by simpa using fun h => hxb h.symm)]
      have := ih a b (List.nodup_cons.mp hnd).2 h'
      omega
    | cons₂ _ h' =>
      -- the head is shared between the pair and the list
      have hb : b ∈ rest := List.singleton_sublist.mp h'
      have hab : b ≠ x := fun hcon => (List.nodup_cons.mp hnd).1 (hcon ▸ hb)
      rw [List.indexOf_cons_self]
      rw [List.indexOf_cons_ne _ (by simpa using fun h => hab h.symm)]
      omega

theorem pair_sublist_of_index_lt {α : Type} :
    ∀ (l : List α) (i j : ℕ) (hi : i < l.length) (hj : j < l.length), i < j →
      List.Sublist [l.get ⟨i, hi⟩, l.get ⟨j, hj⟩] l := by
  intro l
  induction l with
  | nil => intro i j hi; simp at hi
  | cons x rest ih =>
    intro i j hi hj hij
    cases i with
    | zero =>
      cases j with
      | zero => omega
      | succ j' =>
        simp only [List.get_cons_zero, List.get_cons_succ]
        exact (List.singleton_sublist.mpr (List.get_mem _ _ _)).cons₂ x
    | succ i' =>
      cases j with
      | zero => omega
      | succ j' =>
        simp only [List.get_cons_succ]
        exact (ih i' j' _ _ (by omega)).cons x

theorem dictLookup_zip_self {α : Type} :
    ∀ (ks : List String) (vs : List α), ks.Nodup → ks.length = vs.length →
      ks.map (fun k => dictLookup (ks.zip vs) k) = vs.map some := by
  intro ks
  induction ks with
  | nil =>
    intro vs _ hlen
    cases vs with
    | nil => rfl
    | cons v vs' => simp at hlen
  | cons k0 rest ih =>
    intro vs hnd hlen
    cases vs with
    | nil => simp at hlen
    | cons v0 vs' =>
      rw [List.zip_cons_cons, List.map_cons, List.map_cons]
      congr 1
      · rw [dictLookup]
        simp [List.find?]
      · have hstep : rest.map (fun k => dictLookup ((k0, v0) :: rest.zip vs') k) =
            rest.map (fun k => dictLookup (rest.zip vs') k) := by
          apply List.map_congr_left
          intro k hk
          have hne : k0 ≠ k := fun hcon =>
            (List.nodup_cons.mp hnd).1 (hcon ▸ hk)
          rw [dictLookup, List.find?]
          rw [show (decide ((k0, v0).1 = k)) = false by simp [hne]]
          rw [← dictLookup]
        rw [hstep, ih vs' hnd.of_cons (by simpa using hlen)]

/-- **C4**: for a cohort with distinct addresses and each of the four rank
keys, `apply_ranks` stores, per wallet, the rank `ranks[key].get(address)`;
the stored ranks are a permutation of `1..N`; the wallet ranked 1 has the
maximum score for that key with ties resolved in favour of earlier original
order; and equal scores keep their original relative order (stable
descending sort). -/
theorem apply_ranks_spec (wallets : List WalletR)
    (haddr : (wallets.map (·.address)).Nodup) (key : RankKey) :
    (∀ p ∈ apply_ranks wallets,
      getRank p.2 key = dictLookup (rankDict key wallets) p.1.address) ∧
    (wallets.map (fun w => dictLookup (rankDict key wallets) w.address)).Perm
      ((List.range' 1 wallets.length).map some) ∧
    (wallets ≠ [] → ∃ i, ∃ hi : i < wallets.length,
      dictLookup (rankDict key wallets) (wallets.get ⟨i, hi⟩).address = some 1 ∧
      (∀ j, ∀ hj : j < wallets.length,
        scoreOf (wallets.get ⟨j, hj⟩) key ≤ scoreOf (wallets.get ⟨i, hi⟩) key) ∧
      (∀ j, ∀ hj : j < wallets.length, j < i →
        scoreOf (wallets.get ⟨j, hj⟩) key < scoreOf (wallets.get ⟨i, hi⟩) key)) ∧
    (∀ i j, ∀ hi : i < wallets.length, ∀ hj : j < wallets.length, i < j →
      scoreOf (wallets.get ⟨i, hi⟩) key = scoreOf (wallets.get ⟨j, hj⟩) key →
      ∀ ri rj,
        dictLookup (rankDict key wallets) (wallets.get ⟨i, hi⟩).address = some ri →
        dictLookup (rankDict key wallets) (wallets.get ⟨j, hj⟩).address = some rj →
        ri < rj) := by
  have htrans : ∀ (a b c : WalletR), (decide (scoreOf b key ≤ scoreOf a key)) = true →
      (decide (scoreOf c key ≤ scoreOf b key)) = true →
      (decide (scoreOf c key ≤ scoreOf a key)) = true := by
    intro a b c h1 h2
    simp only [decide_eq_true_eq] at h1 h2 ⊢
    exact le_trans h2 h1
  have htot : ∀ (a b : WalletR), ((decide (scoreOf b key ≤ scoreOf a key)) ||
      (decide (scoreOf a key ≤ scoreOf b key))) = true := by
    intro a b
    simp only [Bool.or_eq_true, decide_eq_true_eq]
    exact le_total _ _
  have hperm : (sortDescByScore key wallets).Perm wallets := List.mergeSort_perm _ _
  have hlen : (sortDescByScore key wallets).length = wallets.length := hperm.length_eq
  have haddrs_perm : ((sortDescByScore key wallets).map (·.address)).Perm
      (wallets.map (·.address)) := hperm.map _
  have haddrs_nd : ((sortDescByScore key wallets).map (·.address)).Nodup :=
    haddrs_perm.nodup_iff.mpr haddr
  have hwnd : wallets.Nodup := List.Nodup.of_map _ haddr
  have hond : (sortDescByScore key wallets).Nodup := hperm.nodup_iff.mpr hwnd
  have hD : rankDict key wallets =
      ((sortDescByScore key wallets).map (·.address)).zip
        (List.range' 1 ((sortDescByScore key wallets).map (·.address)).length) := by
    rw [rankDict]
    rw [show (sortDescByScore key wallets).length =
        ((sortDescByScore key wallets).map (·.address)).length from
      (List.length_map _ _).symm]
    rw [foldl_dictInsert_eq_append _ []
      (by intro k _ q hq; exact absurd hq (List.not_mem_nil q)) ?nodup]
    · rw [List.nil_append]
    case nodup =>
      rw [List.map_fst_zip]
      · exact haddrs_nd
      · simp
  refine ⟨?_, ?_, ?_, ?_⟩
  · intro p hp
    obtain ⟨w, _, rfl⟩ := List.mem_map.mp hp
    cases key <;> rfl
  · have h1 : (sortDescByScore key wallets).map
        (fun w => dictLookup (rankDict key wallets) w.address) =
        ((sortDescByScore key wallets).map (·.address)).map
          (fun k => dictLookup (rankDict key wallets) k) := by
      rw [List.map_map]
      rfl
    have h2 : ((sortDescByScore key wallets).map (·.address)).map
        (fun k => dictLookup (rankDict key wallets) k) =
        (List.range' 1 ((sortDescByScore key wallets).map (·.address)).length).map some := by
      simp only [hD]
      exact dictLookup_zip_self _ _ haddrs_nd (by simp)
    refine ((hperm.map _).symm).trans (List.Perm.of_eq ?_)
    rw [h1, h2]
    simp [hlen]
  · intro hne
    have hone : sortDescByScore key wallets ≠ [] := by
      intro hcon
      have h0 : wallets.length = 0 := by rw [← hlen, hcon]; rfl
      exact hne (List.length_eq_zero.mp h0)
    obtain ⟨w1, tail, htl⟩ := List.exists_cons_of_ne_nil hone
    have hw1mem : w1 ∈ wallets := hperm.subset (by rw [htl]; exact List.mem_cons_self _ _)
    obtain ⟨⟨i, hi⟩, hgi⟩ := List.mem_iff_get.mp hw1mem
    have hsorted : List.Pairwise
        (fun a b => (decide (scoreOf b key ≤ scoreOf a key)) = true)
        (sortDescByScore key wallets) := by
      rw [sortDescByScore]
      exact List.sorted_mergeSort htrans htot wallets
    refine ⟨i, hi, ?_, ?_, ?_⟩
    · rw [hgi, hD]
      rw [dictLookup_zip_range' _ 1 _ (by rw [htl]; simp) haddrs_nd]
      rw [htl, List.map_cons, List.indexOf_cons_self]
    · intro j hj
      rw [htl, List.pairwise_cons] at hsorted
      have hmem : wallets.get ⟨j, hj⟩ ∈ sortDescByScore key wallets :=
        hperm.mem_iff.mpr (List.get_mem _ _ _)
      rw [htl] at hmem
      rcases List.mem_cons.mp hmem with heq | hmem'
      · rw [hgi, heq]
      · have h := hsorted.1 _ hmem'
        simp only [decide_eq_true_eq] at h
        rw [hgi]
        exact h
    · intro j hj hji
      by_contra hcon
      push_neg at hcon
      have hpair : List.Sublist [wallets.get ⟨j, hj⟩, wallets.get ⟨i, hi⟩] wallets :=
        pair_sublist_of_index_lt wallets j i hj hi hji
      have hle : (decide (scoreOf (wallets.get ⟨i, hi⟩) key ≤
          scoreOf (wallets.get ⟨j, hj⟩) key)) = true := by
        simp only [decide_eq_true_eq]
        exact hcon
      have hsub2 : List.Sublist [wallets.get ⟨j, hj⟩, wallets.get ⟨i, hi⟩]
          (sortDescByScore key wallets) := by
        rw [sortDescByScore]
        exact List.pair_sublist_mergeSort htrans htot hle hpair
      have hidx := sublist_pair_index_lt _ _ _ hond hsub2
      rw [hgi, htl, List.indexOf_cons_self] at hidx
      omega
  · intro i j hi hj hij heq ri rj hri hrj
    have hpair : List.Sublist [wallets.get ⟨i, hi⟩, wallets.get ⟨j, hj⟩] wallets :=
      pair_sublist_of_index_lt wallets i j hi hj hij
    have hle : (decide (scoreOf (wallets.get ⟨j, hj⟩) key ≤
        scoreOf (wallets.get ⟨i, hi⟩) key)) = true := by
      simp only [decide_eq_true_eq, heq, le_refl]
    have hsub2 : List.Sublist [wallets.get ⟨i, hi⟩, wallets.get ⟨j, hj⟩]
        (sortDescByScore key wallets) := by
      rw [sortDescByScore]
      exact List.pair_sublist_mergeSort htrans htot hle hpair
    have haddr_sub : List.Sublist
        [(wallets.get ⟨i, hi⟩).address, (wallets.get ⟨j, hj⟩).address]
        ((sortDescByScore key wallets).map (·.address)) := by
      have h := hsub2.map (·.address)
      simpa using h
    have haidx := sublist_pair_index_lt _ _ _ haddrs_nd haddr_sub
    have hmi : (wallets.get ⟨i, hi⟩).address ∈
        (sortDescByScore key wallets).map (·.address) := haddr_sub.subset (by simp)
    have hmj : (wallets.get ⟨j, hj⟩).address ∈
        (sortDescByScore key wallets).map (·.address) := haddr_sub.subset (by simp)
    rw [hD, dictLookup_zip_range' _ 1 _ hmi haddrs_nd] at hri
    rw [hD, dictLookup_zip_range' _ 1 _ hmj haddrs_nd] at hrj
    have hri2 : ri = 1 + ((sortDescByScore key wallets).map (·.address)).indexOf
        (wallets.get ⟨i, hi⟩).address := (Option.some.inj hri).symm
    have hrj2 : rj = 1 + ((sortDescByScore key wallets).map (·.address)).indexOf
        (wallets.get ⟨j, hj⟩).address := (Option.some.inj hrj).symm
    omega

theorem apply_ranks_spec_witness :
    (([⟨"a", ⟨10, 1, 2, 3⟩⟩, ⟨"b", ⟨20, 1, 2, 3⟩⟩] : List WalletR).map (·.address)).Nodup ∧
    (([⟨"a", ⟨10, 1, 2, 3⟩⟩, ⟨"b", ⟨20, 1, 2, 3⟩⟩] : List WalletR).map
      (fun w => dictLookup
        (rankDict .risk [⟨"a", ⟨10, 1, 2, 3⟩⟩, ⟨"b", ⟨20, 1, 2, 3⟩⟩]) w.address)).Perm
      ((List.range' 1
        ([⟨"a", ⟨10, 1, 2, 3⟩⟩, ⟨"b", ⟨20, 1, 2, 3⟩⟩] : List WalletR).length).map some) := by
  refine ⟨by decide, ?_⟩
  exact (apply_ranks_spec [⟨"a", ⟨10, 1, 2, 3⟩⟩, ⟨"b", ⟨20, 1, 2, 3⟩⟩]
    (by decide) RankKey.risk).2.1

/-! ## C1: the adaptive batch fetcher partitions its input -/

theorem dedupeGo_of_nodup :
    ∀ (l seen : List String), (∀ x ∈ l, x ∉ seen) → l.Nodup → dedupeGo seen l = l := by
  intro l
  induction l with
  | nil => intro seen _ _; rfl
  | cons x rest ih =>
    intro seen hdisj hnd
    rw [dedupeGo, if_neg (hdisj x (List.mem_cons_self _ _))]
    congr 1
    refine ih (x :: seen) ?_ hnd.of_cons
    intro y hy
    rw [List.mem_cons]
    push_neg
    exact ⟨fun hcon => (List.nodup_cons.mp hnd).1 (hcon ▸ hy),
      hdisj y (List.mem_cons_of_mem _ hy)⟩

theorem dedupe_keep_order_of_nodup (l : List String) (h : l.Nodup) :
    dedupe_keep_order l = l :=
  dedupeGo_of_nodup l [] (fun x _ => List.not_mem_nil x) h

theorem dictContains_iff {α : Type} (d : List (String × α)) (k : String) :
    dictContains d k = true ↔ k ∈ d.map Prod.fst := by
  rw [dictContains, List.any_eq_true]
  simp only [List.mem_map, decide_eq_true_eq]

theorem chunksNat_flatten :
    ∀ (l : List String) (n : ℕ), 1 ≤ n → (chunksNat l n).flatten = l := by
  intro l n
  induction l, n using chunksNat.induct with
  | case1 l n h =>
    intro hn
    rcases h with h | h
    · rw [chunksNat, dif_pos (Or.inl h)]
      rw [List.isEmpty_iff] at h
      rw [h]
      rfl
    · omega
  | case2 l n h ih =>
    intro hn
    rw [chunksNat, dif_neg h]
    rw [List.flatten_cons, ih hn, List.take_append_drop]

theorem chunksZ_flatten (l : List String) (n : ℤ) (hn : 1 ≤ n) :
    (chunksZ l n).flatten = l := by
  rw [chunksZ, if_pos hn]
  exact chunksNat_flatten l n.toNat (by omega)

theorem zipAssign_minv {St : Type} :
    ∀ (ps : List (String × Option St)) (acc : List (String × St) × List String),
      (ps.map Prod.fst).Nodup →
      (∀ k ∈ ps.map Prod.fst, k ∉ acc.1.map Prod.fst) →
      (((zipAssign acc ps).1.map Prod.fst : Multiset String) +
        ((zipAssign acc ps).2 : Multiset String)) =
        (((acc.1.map Prod.fst : List String) : Multiset String) + (acc.2 : Multiset String)) +
          ((ps.map Prod.fst : List String) : Multiset String) := by
  intro ps
  induction ps with
  | nil => intro acc _ _; simp [zipAssign]
  | cons p rest ih =>
    intro acc hnd hdisj
    obtain ⟨a, stv⟩ := p
    have ha : a ∉ acc.1.map Prod.fst := hdisj a (by simp)
    cases stv with
    | some v =>
      rw [show zipAssign acc ((a, some v) :: rest) =
          zipAssign (dictInsert acc.1 a v, acc.2) rest from rfl]
      rw [ih (dictInsert acc.1 a v, acc.2) (by simpa using hnd.of_cons) ?disj]
      case disj =>
        intro k hk
        rw [dictInsert_of_not_mem _ _ _
          (fun q hq hcon => ha (List.mem_map.mpr ⟨q, hq, hcon⟩))]
        rw [List.map_append, List.mem_append]
        push_neg
        refine ⟨hdisj k (by simp [hk]), ?_⟩
        simp only [List.map_cons, List.map_nil, List.mem_singleton]
        intro hcon
        simp only [List.map_cons, List.nodup_cons] at hnd
        exact hnd.1 (hcon ▸ hk)
      rw [dictInsert_of_not_mem _ _ _
        (fun q hq hcon => ha (List.mem_map.mpr ⟨q, hq, hcon⟩))]
      simp only [List.map_append, List.map_cons, List.map_nil, ← Multiset.coe_add,
        ← Multiset.cons_coe, Multiset.coe_nil, ← Multiset.singleton_add]
      abel
    | none =>
      rw [show zipAssign acc ((a, none) :: rest) =
          zipAssign (acc.1, acc.2 ++ [a]) rest from rfl]
      rw [ih (acc.1, acc.2 ++ [a]) (by simpa using hnd.of_cons)
        (fun k hk => hdisj k (by simp [hk]))]
      simp only [List.map_append, List.map_cons, List.map_nil, ← Multiset.coe_add,
        ← Multiset.cons_coe, Multiset.coe_nil, ← Multiset.singleton_add]
      abel

theorem perUserFallback_minv {St : Type} (env : FetchEnv St) :
    ∀ (part : List String) (acc : List (String × St) × List String),
      part.Nodup → (∀ k ∈ part, k ∉ acc.1.map Prod.fst) →
      (((perUserFallback env acc part).1.map Prod.fst : Multiset String) +
        ((perUserFallback env acc part).2 : Multiset String)) =
        (((acc.1.map Prod.fst : List String) : Multiset String) + (acc.2 : Multiset String)) +
          ((part : List String) : Multiset String) := by
  intro part
  induction part with
  | nil => intro acc _ _; simp [perUserFallback]
  | cons a rest ih =>
    intro acc hnd hdisj
    have ha : a ∉ acc.1.map Prod.fst := hdisj a (by simp)
    rw [perUserFallback]
    cases henv : env.userResp a with
    | some st =>
      rw [ih (dictInsert acc.1 a st, acc.2) hnd.of_cons ?disj]
      case disj =>
        intro k hk
        rw [dictInsert_of_not_mem _ _ _
          (fun q hq hcon => ha (List.mem_map.mpr ⟨q, hq, hcon⟩))]
        rw [List.map_append, List.mem_append]
        push_neg
        refine ⟨hdisj k (by simp [hk]), ?_⟩
        simp only [List.map_cons, List.map_nil, List.mem_singleton]
        intro hcon
        exact (List.nodup_cons.mp hnd).1 (hcon ▸ hk)
      rw [dictInsert_of_not_mem _ _ _
        (fun q hq hcon => ha (List.mem_map.mpr ⟨q, hq, hcon⟩))]
      simp only [List.map_append, List.map_cons, List.map_nil, ← Multiset.coe_add,
        ← Multiset.cons_coe, Multiset.coe_nil, ← Multiset.singleton_add]
      abel
    | none =>
      rw [ih (acc.1, acc.2 ++ [a]) hnd.of_cons (fun k hk => hdisj k (by simp [hk]))]
      simp only [List.map_append, List.map_cons, List.map_nil, ← Multiset.coe_add,
        ← Multiset.cons_coe, Multiset.coe_nil, ← Multiset.singleton_add]
      abel

theorem goParts_minv {St : Type} (env : FetchEnv St) (minBatch : ℕ) (fallback : Bool)
    (hMin : 1 ≤ minBatch) :
    ∀ (parts : List (List String)) (acc : List (String × St) × List String),
      (parts.flatten).Nodup →
      (∀ k ∈ parts.flatten, k ∉ acc.1.map Prod.fst ∧ k ∉ acc.2) →
      (((goParts env minBatch fallback hMin parts acc).1.map Prod.fst : Multiset String) +
        ((goParts env minBatch fallback hMin parts acc).2 : Multiset String)) =
        (((acc.1.map Prod.fst : List String) : Multiset String) + (acc.2 : Multiset String)) +
          ((parts.flatten : List String) : Multiset String) := by
  intro parts acc
  induction parts, acc using goParts.induct env minBatch fallback hMin with
  | case1 acc =>
    intro _ _
    simp [goParts]
  | case2 part rest acc l hmatch ih =>
    intro hnd hdisj
    have hboth : env.batchResp part = some l ∧ l.length = part.length := by
      cases henv : env.batchResp part with
      | none =>
        simp only [henv] at hmatch
        exact Option.noConfusion hmatch
      | some l' =>
        simp only [henv] at hmatch
        by_cases hl : l'.length = part.length
        · rw [dif_pos hl] at hmatch
          cases hmatch
          exact ⟨rfl, hl⟩
        · rw [dif_neg hl] at hmatch
          exact Option.noConfusion hmatch
    have henv := hboth.1
    have hlen := hboth.2
    have hfst : (part.zip l).map Prod.fst = part :=
      List.map_fst_zip _ _ (le_of_eq hlen.symm)
    rw [List.flatten_cons] at hnd hdisj
    have hpartnd : part.Nodup := (List.nodup_append.mp hnd).1
    have hrestnd : rest.flatten.Nodup := (List.nodup_append.mp hnd).2.1
    have hpartrest : ∀ a ∈ part, a ∉ rest.flatten := (List.nodup_append.mp hnd).2.2
    have hz := zipAssign_minv (part.zip l) acc (by rw [hfst]; exact hpartnd)
      (by rw [hfst]; intro k hk; exact (hdisj k (List.mem_append.mpr (Or.inl hk))).1)
    rw [hfst] at hz
    have hmem : ∀ k, (k ∈ (zipAssign acc (part.zip l)).1.map Prod.fst ∨
        k ∈ (zipAssign acc (part.zip l)).2) →
        (k ∈ acc.1.map Prod.fst ∨ k ∈ acc.2 ∨ k ∈ part) := by
      intro k hk
      have h1 : k ∈ (((zipAssign acc (part.zip l)).1.map Prod.fst : List String) :
          Multiset String) + ((zipAssign acc (part.zip l)).2 : Multiset String) := by
        rcases hk with hk | hk
        · exact Multiset.mem_add.mpr (Or.inl (Multiset.mem_coe.mpr hk))
        · exact Multiset.mem_add.mpr (Or.inr (Multiset.mem_coe.mpr hk))
      rw [hz] at h1
      rcases Multiset.mem_add.mp h1 with h2 | h2
      · rcases Multiset.mem_add.mp h2 with h3 | h3
        · exact Or.inl (Multiset.mem_coe.mp h3)
        · exact Or.inr (Or.inl (Multiset.mem_coe.mp h3))
      · exact Or.inr (Or.inr (Multiset.mem_coe.mp h2))
    simp only [goParts, henv, hlen, eq_self_iff_true, if_true]
    rw [ih hrestnd ?hdisj]
    case hdisj =>
      intro k hk
      constructor
      · intro hcon
        rcases hmem k (Or.inl hcon) with h | h | h
        · exact (hdisj k (List.mem_append.mpr (Or.inr hk))).1 h
        · exact (hdisj k (List.mem_append.mpr (Or.inr hk))).2 h
        · exact hpartrest k h hk
      · intro hcon
        rcases hmem k (Or.inr hcon) with h | h | h
        · exact (hdisj k (List.mem_append.mpr (Or.inr hk))).1 h
        · exact (hdisj k (List.mem_append.mpr (Or.inr hk))).2 h
        · exact hpartrest k h hk
    rw [hz, List.flatten_cons]
    rw [← Multiset.coe_add]
    abel
  | case3 part rest acc hmatch hlt mid left right lr rr ihL ihR ihL2 ihR2 ihRest =>
    intro hnd hdisj
    rw [List.flatten_cons] at hnd hdisj
    have hpartnd : part.Nodup := (List.nodup_append.mp hnd).1
    have hrestnd : rest.flatten.Nodup := (List.nodup_append.mp hnd).2.1
    have hpartrest : ∀ a ∈ part, a ∉ rest.flatten := (List.nodup_append.mp hnd).2.2
    have hsplitpart : left ++ right = part := List.take_append_drop _ _
    have hpartnd' : (left ++ right).Nodup := by rw [hsplitpart]; exact hpartnd
    have hleftnd : left.Nodup := (List.nodup_append.mp hpartnd').1
    have hrightnd : right.Nodup := (List.nodup_append.mp hpartnd').2.1
    have hlr_disj : ∀ a ∈ left, a ∉ right := (List.nodup_append.mp hpartnd').2.2
    have hleftsub : ∀ a ∈ left, a ∈ part := by
      intro a ha; rw [← hsplitpart]; exact List.mem_append.mpr (Or.inl ha)
    have hrightsub : ∀ a ∈ right, a ∈ part := by
      intro a ha; rw [← hsplitpart]; exact List.mem_append.mpr (Or.inr ha)
    have hflatL : (chunksZ left ((minBatch ⊔ left.length : ℕ) : ℤ)).flatten = left :=
      chunksZ_flatten _ _ (by exact_mod_cast le_trans hMin (le_max_left _ _))
    have hflatR : (chunksZ right ((minBatch ⊔ right.length : ℕ) : ℤ)).flatten = right :=
      chunksZ_flatten _ _ (by exact_mod_cast le_trans hMin (le_max_left _ _))
    have hL := ihL (by rw [hflatL]; exact hleftnd)
      (by intro k _; exact ⟨List.not_mem_nil k, List.not_mem_nil k⟩)
    have hR := ihR (by rw [hflatR]; exact hrightnd)
      (by intro k _; exact ⟨List.not_mem_nil k, List.not_mem_nil k⟩)
    rw [hflatL] at hL
    rw [hflatR] at hR
    simp only [List.map_nil, Multiset.coe_nil, zero_add, add_zero] at hL hR
    have hlrdef : lr = goParts env minBatch fallback hMin
        (chunksZ left ((minBatch ⊔ left.length : ℕ) : ℤ)) ([], []) := rfl
    have hrrdef : rr = goParts env minBatch fallback hMin
        (chunksZ right ((minBatch ⊔ right.length : ℕ) : ℤ)) ([], []) := rfl
    rw [← hlrdef] at hL
    rw [← hrrdef] at hR
    have hLperm : ((lr.1.map Prod.fst) ++ lr.2).Perm left := by
      rw [← Multiset.coe_eq_coe, ← Multiset.coe_add]
      exact hL
    have hRperm : ((rr.1.map Prod.fst) ++ rr.2).Perm right := by
      rw [← Multiset.coe_eq_coe, ← Multiset.coe_add]
      exact hR
    have hLnd : ((lr.1.map Prod.fst) ++ lr.2).Nodup := hLperm.nodup_iff.mpr hleftnd
    have hRnd : ((rr.1.map Prod.fst) ++ rr.2).Nodup := hRperm.nodup_iff.mpr hrightnd
    obtain ⟨hLk_nd, hLf_nd, hLkf⟩ := List.nodup_append.mp hLnd
    obtain ⟨hRk_nd, hRf_nd, hRkf⟩ := List.nodup_append.mp hRnd
    have hLk_sub : ∀ a ∈ lr.1.map Prod.fst, a ∈ left :=
      fun a ha => hLperm.subset (List.mem_append.mpr (Or.inl ha))
    have hLf_sub : ∀ a ∈ lr.2, a ∈ left :=
      fun a ha => hLperm.subset (List.mem_append.mpr (Or.inr ha))
    have hRk_sub : ∀ a ∈ rr.1.map Prod.fst, a ∈ right :=
      fun a ha => hRperm.subset (List.mem_append.mpr (Or.inl ha))
    have hRf_sub : ∀ a ∈ rr.2, a ∈ right :=
      fun a ha => hRperm.subset (List.mem_append.mpr (Or.inr ha))
    have hfinL : finalizeFailed lr.1 lr.2 = lr.2 := by
      rw [finalizeFailed, dedupe_keep_order_of_nodup _ hLf_nd]
      apply List.filter_eq_self.mpr
      intro a ha
      simp only [decide_eq_true_eq, dictContains_iff]
      exact List.disjoint_right.mp hLkf ha
    have hfinR : finalizeFailed rr.1 rr.2 = rr.2 := by
      rw [finalizeFailed, dedupe_keep_order_of_nodup _ hRf_nd]
      apply List.filter_eq_self.mpr
      intro a ha
      simp only [decide_eq_true_eq, dictContains_iff]
      exact List.disjoint_right.mp hRkf ha
    have hupd1 : dictUpdate acc.1 lr.1 = acc.1 ++ lr.1 := by
      rw [dictUpdate]
      apply foldl_dictInsert_eq_append lr.1 acc.1 ?cond hLk_nd
      case cond =>
        intro k hk q hq hcon
        exact (hdisj k (List.mem_append.mpr (Or.inl (hleftsub _ (hLk_sub _ hk))))).1
          (List.mem_map.mpr ⟨q, hq, hcon⟩)
    have hupd2 : dictUpdate (acc.1 ++ lr.1) rr.1 = acc.1 ++ lr.1 ++ rr.1 := by
      rw [dictUpdate]
      apply foldl_dictInsert_eq_append rr.1 (acc.1 ++ lr.1) ?cond2 hRk_nd
      case cond2 =>
        intro k hk q hq hcon
        rcases List.mem_append.mp hq with hq' | hq'
        · exact (hdisj k (List.mem_append.mpr (Or.inl (hrightsub _ (hRk_sub _ hk))))).1
            (List.mem_map.mpr ⟨q, hq', hcon⟩)
        · exact hlr_disj k (hLk_sub _ (List.mem_map.mpr ⟨q, hq', hcon⟩)) (hRk_sub _ hk)
    have hstep : goParts env minBatch fallback hMin (part :: rest) acc =
        goParts env minBatch fallback hMin rest
          (dictUpdate (dictUpdate acc.1 lr.1) rr.1,
            acc.2 ++ finalizeFailed lr.1 lr.2 ++ finalizeFailed rr.1 rr.2) := by
      cases henv : env.batchResp part with
      | none =>
        simp only [goParts, henv, dif_pos hlt]
      | some l' =>
        have hl : ¬ l'.length = part.length := by
          intro hcon
          simp only [henv] at hmatch
          rw [dif_pos hcon] at hmatch
          exact Option.noConfusion hmatch
        simp only [goParts, henv, if_neg hl, dif_pos hlt]
    rw [hstep, hupd1, hupd2, hfinL, hfinR]
    rw [hupd1, hupd2, hfinL, hfinR] at ihRest
    rw [ihRest hrestnd ?hdisj2]
    case hdisj2 =>
      intro k hk
      constructor
      · simp only [List.map_append, List.mem_append]
        push_neg
        refine ⟨⟨(hdisj k (List.mem_append.mpr (Or.inr hk))).1, ?_⟩, ?_⟩
        · intro hcon
          exact hpartrest k (hleftsub _ (hLk_sub _ hcon)) hk
        · intro hcon
          exact hpartrest k (hrightsub _ (hRk_sub _ hcon)) hk
      · simp only [List.mem_append]
        push_neg
        refine ⟨⟨(hdisj k (List.mem_append.mpr (Or.inr hk))).2, ?_⟩, ?_⟩
        · intro hcon
          exact hpartrest k (hleftsub _ (hLf_sub _ hcon)) hk
        · intro hcon
          exact hpartrest k (hrightsub _ (hRf_sub _ hcon)) hk
    rw [List.flatten_cons]
    simp only [List.map_append, ← Multiset.coe_add]
    have hpartm : ((part : List String) : Multiset String) =
        (((lr.1.map Prod.fst : List String) : Multiset String) + (lr.2 : Multiset String)) +
        (((rr.1.map Prod.fst : List String) : Multiset String) + (rr.2 : Multiset String)) := by
      rw [hL, hR, Multiset.coe_add, hsplitpart]
    rw [hpartm]
    abel
  | case4 part rest acc hmatch hlt hfb ih =>
    intro hnd hdisj
    rw [List.flatten_cons] at hnd hdisj
    have hpartnd : part.Nodup := (List.nodup_append.mp hnd).1
    have hrestnd : rest.flatten.Nodup := (List.nodup_append.mp hnd).2.1
    have hpartrest : ∀ a ∈ part, a ∉ rest.flatten := (List.nodup_append.mp hnd).2.2
    have hp := perUserFallback_minv env part acc hpartnd
      (fun k hk => (hdisj k (List.mem_append.mpr (Or.inl hk))).1)
    have hmem : ∀ k, (k ∈ (perUserFallback env acc part).1.map Prod.fst ∨
        k ∈ (perUserFallback env acc part).2) →
        (k ∈ acc.1.map Prod.fst ∨ k ∈ acc.2 ∨ k ∈ part) := by
      intro k hk
      have h1 : k ∈ (((perUserFallback env acc part).1.map Prod.fst : List String) :
          Multiset String) + ((perUserFallback env acc part).2 : Multiset String) := by
        rcases hk with hk | hk
        · exact Multiset.mem_add.mpr (Or.inl (Multiset.mem_coe.mpr hk))
        · exact Multiset.mem_add.mpr (Or.inr (Multiset.mem_coe.mpr hk))
      rw [hp] at h1
      rcases Multiset.mem_add.mp h1 with h2 | h2
      · rcases Multiset.mem_add.mp h2 with h3 | h3
        · exact Or.inl (Multiset.mem_coe.mp h3)
        · exact Or.inr (Or.inl (Multiset.mem_coe.mp h3))
      · exact Or.inr (Or.inr (Multiset.mem_coe.mp h2))
    have hstep : goParts env minBatch fallback hMin (part :: rest) acc =
        goParts env minBatch fallback hMin rest (perUserFallback env acc part) := by
      cases henv : env.batchResp part with
      | none =>
        simp only [goParts, henv, dif_neg hlt, hfb, if_true]
      | some l' =>
        have hl : ¬ l'.length = part.length := by
          intro hcon
          simp only [henv] at hmatch
          rw [dif_pos hcon] at hmatch
          exact Option.noConfusion hmatch
        simp only [goParts, henv, if_neg hl, dif_neg hlt, hfb, if_true]
    rw [hstep]
    rw [ih hrestnd ?hdisj3]
    case hdisj3 =>
      intro k hk
      constructor
      · intro hcon
        rcases hmem k (Or.inl hcon) with h | h | h
        · exact (hdisj k (List.mem_append.mpr (Or.inr hk))).1 h
        · exact (hdisj k (List.mem_append.mpr (Or.inr hk))).2 h
        · exact hpartrest k h hk
      · intro hcon
        rcases hmem k (Or.inr hcon) with h | h | h
        · exact (hdisj k (List.mem_append.mpr (Or.inr hk))).1 h
        · exact (hdisj k (List.mem_append.mpr (Or.inr hk))).2 h
        · exact hpartrest k h hk
    rw [hp, List.flatten_cons]
    rw [← Multiset.coe_add]
    abel
  | case5 part rest acc hmatch hlt hfb ih =>
    intro hnd hdisj
    rw [List.flatten_cons] at hnd hdisj
    have hrestnd : rest.flatten.Nodup := (List.nodup_append.mp hnd).2.1
    have hpartrest : ∀ a ∈ part, a ∉ rest.flatten := (List.nodup_append.mp hnd).2.2
    have hstep : goParts env minBatch fallback hMin (part :: rest) acc =
        goParts env minBatch fallback hMin rest (acc.1, acc.2 ++ part) := by
      cases henv : env.batchResp part with
      | none =>
        simp only [goParts, henv, dif_neg hlt, hfb, Bool.false_eq_true, if_false]
      | some l' =>
        have hl : ¬ l'.length = part.length := by
          intro hcon
          simp only [henv] at hmatch
          rw [dif_pos hcon] at hmatch
          exact Option.noConfusion hmatch
        simp only [goParts, henv, if_neg hl, dif_neg hlt, hfb, Bool.false_eq_true,
          if_false]
    rw [hstep]
    rw [ih hrestnd ?hdisj4]
    case hdisj4 =>
      intro k hk
      refine ⟨(hdisj k (List.mem_append.mpr (Or.inr hk))).1, ?_⟩
      rw [List.mem_append]
      push_neg
      exact ⟨(hdisj k (List.mem_append.mpr (Or.inr hk))).2,
        fun hcon => hpartrest k hcon hk⟩
    rw [List.flatten_cons]
    simp only [← Multiset.coe_add]
    abel

/-- **C1 (amended)**: for every duplicate-free list of identifiers, every
batch size ≥ 1 and minimum batch size ≥ 1, the adaptive batch fetcher
returns a states mapping and a failed list such that no identifier is in
both, every input identifier lands in exactly one of the two, only input
identifiers appear, and `|states| + |failed| = N`. -/
theorem batch_adaptive_partition {St : Type} (env : FetchEnv St) (users : List String)
    (batchSize : ℤ) (minBatch : ℕ) (fallback : Bool) (hMin : 1 ≤ minBatch)
    (hbs : 1 ≤ batchSize) (hnd : users.Nodup) :
    (∀ a, ¬(a ∈ (batch_clearinghouse_states_adaptive env users batchSize minBatch
        fallback hMin).1.map Prod.fst ∧
      a ∈ (batch_clearinghouse_states_adaptive env users batchSize minBatch
        fallback hMin).2)) ∧
    (∀ a ∈ users,
      (a ∈ (batch_clearinghouse_states_adaptive env users batchSize minBatch
          fallback hMin).1.map Prod.fst ∧
        a ∉ (batch_clearinghouse_states_adaptive env users batchSize minBatch
          fallback hMin).2) ∨
      (a ∈ (batch_clearinghouse_states_adaptive env users batchSize minBatch
          fallback hMin).2 ∧
        a ∉ (batch_clearinghouse_states_adaptive env users batchSize minBatch
          fallback hMin).1.map Prod.fst)) ∧
    (∀ a, (a ∈ (batch_clearinghouse_states_adaptive env users batchSize minBatch
        fallback hMin).1.map Prod.fst ∨
      a ∈ (batch_clearinghouse_states_adaptive env users batchSize minBatch
        fallback hMin).2) → a ∈ users) ∧
    (batch_clearinghouse_states_adaptive env users batchSize minBatch
      fallback hMin).1.length +
    (batch_clearinghouse_states_adaptive env users batchSize minBatch
      fallback hMin).2.length = users.length := by
  have hflat : (chunksZ users batchSize).flatten = users := chunksZ_flatten _ _ hbs
  have hg := goParts_minv env minBatch fallback hMin (chunksZ users batchSize) ([], [])
    (by rw [hflat]; exact hnd)
    (by intro k _; exact ⟨List.not_mem_nil k, List.not_mem_nil k⟩)
  rw [hflat] at hg
  simp only [List.map_nil, Multiset.coe_nil, zero_add, add_zero] at hg
  have hperm : (((goParts env minBatch fallback hMin (chunksZ users batchSize)
      ([], [])).1.map Prod.fst) ++
      (goParts env minBatch fallback hMin (chunksZ users batchSize) ([], [])).2).Perm
      users := by
    rw [← Multiset.coe_eq_coe, ← Multiset.coe_add]
    exact hg
  have hGnd := hperm.nodup_iff.mpr hnd
  obtain ⟨hk_nd, hf_nd, hkf⟩ := List.nodup_append.mp hGnd
  have hfin : finalizeFailed
      (goParts env minBatch fallback hMin (chunksZ users batchSize) ([], [])).1
      (goParts env minBatch fallback hMin (chunksZ users batchSize) ([], [])).2 =
      (goParts env minBatch fallback hMin (chunksZ users batchSize) ([], [])).2 := by
    rw [finalizeFailed, dedupe_keep_order_of_nodup _ hf_nd]
    apply List.filter_eq_self.mpr
    intro a ha
    simp only [decide_eq_true_eq, dictContains_iff]
    exact List.disjoint_right.mp hkf ha
  have hwrap : batch_clearinghouse_states_adaptive env users batchSize minBatch
      fallback hMin =
      ((goParts env minBatch fallback hMin (chunksZ users batchSize) ([], [])).1,
       finalizeFailed
        (goParts env minBatch fallback hMin (chunksZ users batchSize) ([], [])).1
        (goParts env minBatch fallback hMin (chunksZ users batchSize) ([], [])).2) := rfl
  rw [hwrap, hfin]
  refine ⟨?_, ?_, ?_, ?_⟩
  · rintro a ⟨h1, h2⟩
    exact hkf h1 h2
  · intro a ha
    rcases List.mem_append.mp (hperm.mem_iff.mpr ha) with h | h
    · exact Or.inl ⟨h, hkf h⟩
    · exact Or.inr ⟨h, fun hcon => hkf hcon h⟩
  · intro a ha
    refine hperm.subset (List.mem_append.mpr ?_)
    exact ha
  · have := hperm.length_eq
    rw [List.length_append, List.length_map] at this
    exact this

/-- **C1 (counterexample)**: the claim quantifies over *any* batch size; with
batch size `-1` (Python `range(0, len, -1)` yields no indices) the fetcher
processes no chunk at all and returns an empty mapping and an empty failed
list for a non-empty input, so the sizes do not add up to `N`. -/
theorem batch_adaptive_negative_batch_counterexample :
    batch_clearinghouse_states_adaptive
      (⟨fun _ => none, fun _ => none⟩ : FetchEnv Unit) ["0xabc"] (-1) 5 true
      (by norm_num) = ([], []) ∧
    (([] : List (String × Unit)).length + ([] : List String).length ≠
      ["0xabc"].length) := by
  constructor
  · have h1 : chunksZ ["0xabc"] (-1) = ([] : List (List String)) := by
      rw [chunksZ, if_neg (by norm_num)]
    have h2 : goParts (⟨fun _ => none, fun _ => none⟩ : FetchEnv Unit) 5 true
        (by norm_num) ([] : List (List String)) ([], []) =
        (([], []) : List (String × Unit) × List String) := by
      simp [goParts]
    have hwrap : batch_clearinghouse_states_adaptive
        (⟨fun _ => none, fun _ => none⟩ : FetchEnv Unit) ["0xabc"] (-1) 5 true
        (by norm_num) =
        ((goParts (⟨fun _ => none, fun _ => none⟩ : FetchEnv Unit) 5 true (by norm_num)
            (chunksZ ["0xabc"] (-1)) ([], [])).1,
         finalizeFailed
          (goParts (⟨fun _ => none, fun _ => none⟩ : FetchEnv Unit) 5 true (by norm_num)
            (chunksZ ["0xabc"] (-1)) ([], [])).1
          (goParts (⟨fun _ => none, fun _ => none⟩ : FetchEnv Unit) 5 true (by norm_num)
            (chunksZ ["0xabc"] (-1)) ([], [])).2) := rfl
    rw [hwrap]
    rw [h1, h2]
    rfl
  · simp

theorem batch_adaptive_partition_witness :
    (1 : ℤ) ≤ 2 ∧ (["0xa", "0xb"] : List String).Nodup ∧
    (batch_clearinghouse_states_adaptive
      (⟨fun _ => none, fun _ => none⟩ : FetchEnv Unit) ["0xa", "0xb"] 2 1 true
      (by norm_num)).1.length +
    (batch_clearinghouse_states_adaptive
      (⟨fun _ => none, fun _ => none⟩ : FetchEnv Unit) ["0xa", "0xb"] 2 1 true
      (by norm_num)).2.length = (["0xa", "0xb"] : List String).length := by
  refine ⟨by norm_num, by decide, ?_⟩
  exact (batch_adaptive_partition (⟨fun _ => none, fun _ => none⟩ : FetchEnv Unit)
    ["0xa", "0xb"] 2 1 true (by norm_num) (by norm_num) (by decide)).2.2.2
